import Mathlib

/-!
Verification of the SVGP core (GPflow/svgp.py): the four-branch prior-KL
computation, the ELBO assembly in build_likelihood, the prediction path
build_predict, and the construction-time initialisation of the variational
parameters.  Real matrices are Mathlib matrices over the reals; the external
Cholesky primitive is an explicit function parameter; triangular solves are
embedded as executable forward and backward substitution.
-/

noncomputable section

/-- Real matrices indexed by Fin, the shape used throughout svgp.py. -/
abbrev Mat (m n : ℕ) : Type := Matrix (Fin m) (Fin n) ℝ

/-- The fixed jitter added to the diagonal of the Gram matrix before a
Cholesky factorization, from svgp.py line 60. -/
def jitter : ℝ := 1e-6

/-- A matrix is lower triangular when every entry strictly above the
diagonal is zero.  This is the contract of the lower factor returned by
the external Cholesky primitive. -/
def IsLowerTriangular {n : ℕ} (A : Mat n n) : Prop :=
  ∀ i j : Fin n, i < j → A i j = 0

/-- Forward substitution: the unique x with L x = b when L is lower
triangular with nonzero diagonal.  Embeds the primitive
triangular_solve(L, b, 'lower'). -/
def forwardSolveVec {n : ℕ} (L : Mat n n) (b : Fin n → ℝ) : Fin n → ℝ
  | i => (b i - ∑ j : Fin n, if h : j < i then L i j * forwardSolveVec L b j else 0) / L i i
termination_by i => i.1
decreasing_by exact h

/-- Backward substitution: the unique x with U x = b when U is upper
triangular with nonzero diagonal.  Embeds the primitive
triangular_solve(U, b, 'upper'). -/
def backSolveVec {n : ℕ} (U : Mat n n) (b : Fin n → ℝ) : Fin n → ℝ
  | i => (b i - ∑ j : Fin n, if h : i < j then U i j * backSolveVec U b j else 0) / U i i
termination_by i => n - i.1
decreasing_by exact Nat.sub_lt_sub_left i.2 h

/-- Columnwise forward substitution on a matrix right-hand side. -/
def forwardSolveMat {n m : ℕ} (L : Mat n n) (B : Mat n m) : Mat n m :=
  Matrix.of fun i j => forwardSolveVec L (fun k => B k j) i

/-- Columnwise backward substitution on a matrix right-hand side. -/
def backSolveMat {n m : ℕ} (U : Mat n n) (B : Mat n m) : Mat n m :=
  Matrix.of fun i j => backSolveVec U (fun k => B k j) i

/-- Extraction of the lower triangle (diagonal included), the primitive
triangle(A, 'lower') used on q_sqrt slices in svgp.py. -/
def lowerTriangle {n : ℕ} (A : Mat n n) : Mat n n :=
  Matrix.of fun i j => if j ≤ i then A i j else 0

/-- The factor computed at svgp.py line 60: the Cholesky primitive applied
to the Gram matrix plus jitter times the identity. -/
def cholK {M : ℕ} (chol : Mat M M → Mat M M) (Kz : Mat M M) : Mat M M :=
  chol (Kz + jitter • (1 : Mat M M))

/-- The inverse of the jittered Gram matrix as computed at svgp.py lines
65 and 66: a forward solve of the identity against the factor followed by
a backward solve against its transpose. -/
def Kinv {M : ℕ} (chol : Mat M M → Mat M M) (Kz : Mat M M) : Mat M M :=
  backSolveMat (cholK chol Kz).transpose (forwardSolveMat (cholK chol Kz) (1 : Mat M M))

/-- Prior KL, branch whiten true and q_diag true, svgp.py lines 49 to 52. -/
def KL_white_diag {M L : ℕ} (q_mu q_sqrt : Mat M L) : ℝ :=
  0.5 * (∑ i, ∑ d, (q_mu i d) ^ 2) - 0.5 * (M : ℝ) * (L : ℝ)
    + (-(0.5 * (∑ i, ∑ d, Real.log ((q_sqrt i d) ^ 2)))
        + 0.5 * (∑ i, ∑ d, (q_sqrt i d) ^ 2))

/-- Prior KL, branch whiten true and q_diag false, svgp.py lines 49, 50
and 54 to 57: per latent function the lower triangle of the q_sqrt slice
contributes its log determinant and its squared Frobenius norm. -/
def KL_white_full {M L : ℕ} (q_mu : Mat M L) (q_sqrt : Fin L → Mat M M) : ℝ :=
  0.5 * (∑ i, ∑ d, (q_mu i d) ^ 2) - 0.5 * (M : ℝ) * (L : ℝ)
    + ∑ d, (-(0.5 * (∑ i, Real.log ((lowerTriangle (q_sqrt d) i i) ^ 2)))
        + 0.5 * (∑ i, ∑ j, (lowerTriangle (q_sqrt d) i j) ^ 2))

/-- Prior KL, branch whiten false and q_diag true, svgp.py lines 59 to 68. -/
def KL_nat_diag {M L : ℕ} (chol : Mat M M → Mat M M) (Kz : Mat M M)
    (q_mu q_sqrt : Mat M L) : ℝ :=
  0.5 * (∑ i, ∑ d, (forwardSolveMat (cholK chol Kz) q_mu i d) ^ 2)
    + (L : ℝ) * (0.5 * (∑ i, Real.log ((cholK chol Kz i i) ^ 2)))
    - 0.5 * (M : ℝ) * (L : ℝ)
    - 0.5 * (∑ i, ∑ d, Real.log ((q_sqrt i d) ^ 2))
    + 0.5 * (∑ i, ∑ d, Kinv chol Kz i i * (q_sqrt i d) ^ 2)

/-- Prior KL, branch whiten false and q_diag false, svgp.py lines 59 to 63
and 70 to 75. -/
def KL_nat_full {M L : ℕ} (chol : Mat M M → Mat M M) (Kz : Mat M M)
    (q_mu : Mat M L) (q_sqrt : Fin L → Mat M M) : ℝ :=
  0.5 * (∑ i, ∑ d, (forwardSolveMat (cholK chol Kz) q_mu i d) ^ 2)
    + (L : ℝ) * (0.5 * (∑ i, Real.log ((cholK chol Kz i i) ^ 2)))
    - 0.5 * (M : ℝ) * (L : ℝ)
    + ∑ d, (-(0.5 * (∑ i, Real.log ((lowerTriangle (q_sqrt d) i i) ^ 2)))
        + 0.5 * (∑ i, ∑ j, (forwardSolveMat (cholK chol Kz) (lowerTriangle (q_sqrt d)) i j) ^ 2))

/-- Modelled from the spec: the constrained-parameter transforms of
transforms.py are not under src.  Only two are used by svgp.py: the
positivity transform passed for diagonal q_sqrt, and the identity used
when the Param constructor receives no transform. -/
inductive Transform : Type
  | identity : Transform
  | positive : Transform
deriving DecidableEq

/-- Modelled from the spec: param.py is not under src.  A Param couples a
value with the transform constraining its free representation; omitting
the transform argument leaves the value unconstrained, which is the
identity transform. -/
structure Param (α : Type) : Type where
  value : α
  transform : Transform

/-- Modelled from the spec: transforms.positive maps an unconstrained real
free variable to a strictly positive effective value, here the softplus
map. -/
def transforms_positive (x : ℝ) : ℝ := Real.log (1 + Real.exp x)

/-- The variational scale parameter q_sqrt: an M by L matrix of per-entry
standard deviations when q_diag holds, otherwise one M by M slice per
latent function, the slice d being q_sqrt at indices all, all, d. -/
inductive QSqrt (M L : ℕ) : Type
  | diag (s : Mat M L) : QSqrt M L
  | full (s : Fin L → Mat M M) : QSqrt M L

/-- The kernel object handed to the model; svgp.py itself only evaluates
K on Z, the other fields are the interface the spec gives for external
kernels. -/
structure Kern (D : ℕ) : Type where
  K : (m : ℕ) → Matrix (Fin m) (Fin D) ℝ → Matrix (Fin m) (Fin m) ℝ
  Kcross : (m n : ℕ) → Matrix (Fin m) (Fin D) ℝ → Matrix (Fin n) (Fin D) ℝ →
      Matrix (Fin m) (Fin n) ℝ
  Kdiag : (m : ℕ) → Matrix (Fin m) (Fin D) ℝ → (Fin m → ℝ)

/-- The external likelihood object; svgp.py calls only
variational_expectations on it. -/
structure Likelihood (N L P : ℕ) : Type where
  variational_expectations : Matrix (Fin N) (Fin L) ℝ → Matrix (Fin N) (Fin L) ℝ →
      Matrix (Fin N) (Fin P) ℝ → Matrix (Fin N) (Fin L) ℝ

/-- The state of a constructed SVGP model: data X and Y, the external
kernel, likelihood and mean function, inducing inputs Z, variational
parameters q_mu and q_sqrt, and the whiten flag fixed at construction.
N data rows, D input columns, M inducing points, L latent functions, P
target columns.  The q_diag flag is carried by the shape of q_sqrt. -/
structure SVGPState (N D M L P : ℕ) : Type where
  X : Mat N D
  Y : Mat N P
  kern : Kern D
  likelihood : Likelihood N L P
  mean_function : (n : ℕ) → Matrix (Fin n) (Fin D) ℝ → Matrix (Fin n) (Fin L) ℝ
  Z : Mat M D
  q_mu : Mat M L
  q_sqrt : QSqrt M L
  whiten : Bool

/-- The constructor line num_latent or Y.shape 1 of svgp.py line 36,
with Python truthiness: None and 0 are falsy, any other number is kept. -/
def svgp_num_latent (num_latent : Option ℕ) (ycols : ℕ) : ℕ :=
  match num_latent with
  | none => ycols
  | some k => if k = 0 then ycols else k

/-- The q_mu parameter created at svgp.py line 39: an M by L zero matrix
wrapped in a Param with no transform argument. -/
def svgp_q_mu_init (M L : ℕ) : Param (Mat M L) :=
  Param.mk (0 : Mat M L) Transform.identity

/-- The q_sqrt parameter created at svgp.py lines 40 to 43: all ones with
the positivity transform when q_diag, otherwise a stack of L identity
matrices (the axis swap of the source makes slice d of the stacked array
the M by M identity) with no transform argument. -/
def svgp_q_sqrt_init (M L : ℕ) (q_diag : Bool) : Param (QSqrt M L) :=
  if q_diag then
    Param.mk (QSqrt.diag (Matrix.of fun _ _ => (1 : ℝ))) Transform.positive
  else
    Param.mk (QSqrt.full fun _ => (1 : Mat M M)) Transform.identity

/-- build_prior_KL of svgp.py lines 45 to 78: dispatch on the whiten flag
and the shape of q_sqrt to one of the four closed forms.  The external
Cholesky primitive is the explicit argument chol. -/
def build_prior_KL {N D M L P : ℕ} (chol : Mat M M → Mat M M)
    (m : SVGPState N D M L P) : ℝ :=
  match m.whiten, m.q_sqrt with
  | true, QSqrt.diag s => KL_white_diag m.q_mu s
  | true, QSqrt.full s => KL_white_full m.q_mu s
  | false, QSqrt.diag s => KL_nat_diag chol (m.kern.K M m.Z) m.q_mu s
  | false, QSqrt.full s => KL_nat_full chol (m.kern.K M m.Z) m.q_mu s

/-- Modelled from the spec: conditionals.py is not under src.  The two
conditional predictors used by svgp.py, taken as opaque function objects
with the argument list of the source calls (query inputs, Z, kernel,
q_mu, q_sqrt; the num_latent argument is the type index L). -/
structure Conditionals (D M L : ℕ) : Type where
  gaussian_gp_predict : (n : ℕ) → Matrix (Fin n) (Fin D) ℝ → Mat M D → Kern D →
      Mat M L → QSqrt M L → Matrix (Fin n) (Fin L) ℝ × Matrix (Fin n) (Fin L) ℝ
  gaussian_gp_predict_whitened : (n : ℕ) → Matrix (Fin n) (Fin D) ℝ → Mat M D → Kern D →
      Mat M L → QSqrt M L → Matrix (Fin n) (Fin L) ℝ × Matrix (Fin n) (Fin L) ℝ

/-- build_likelihood of svgp.py lines 80 to 102: prior KL, then the
conditional at the training inputs picked by the whiten flag, the mean
function added to the conditional mean, the variational expectations of
the external likelihood, and their sum minus the KL. -/
def build_likelihood {N D M L P : ℕ} (chol : Mat M M → Mat M M)
    (conds : Conditionals D M L) (m : SVGPState N D M L P) : ℝ :=
  let KL := build_prior_KL chol m
  let fp := if m.whiten then conds.gaussian_gp_predict_whitened N m.X m.Z m.kern m.q_mu m.q_sqrt
      else conds.gaussian_gp_predict N m.X m.Z m.kern m.q_mu m.q_sqrt
  let fmean := fp.1 + m.mean_function N m.X
  let fvar := fp.2
  let ve := m.likelihood.variational_expectations fmean fvar m.Y
  (∑ i, ∑ j, ve i j) - KL

/-- build_predict of svgp.py lines 104 to 109: the conditional at the new
inputs picked by the whiten flag, the mean function added to its mean. -/
def build_predict {N D M L P n : ℕ} (conds : Conditionals D M L)
    (m : SVGPState N D M L P) (Xnew : Matrix (Fin n) (Fin D) ℝ) :
    Matrix (Fin n) (Fin L) ℝ × Matrix (Fin n) (Fin L) ℝ :=
  let p := if m.whiten then conds.gaussian_gp_predict_whitened n Xnew m.Z m.kern m.q_mu m.q_sqrt
      else conds.gaussian_gp_predict n Xnew m.Z m.kern m.q_mu m.q_sqrt
  (p.1 + m.mean_function n Xnew, p.2)

/-- The matrices factored by the Cholesky primitive during one evaluation
of build_prior_KL, in evaluation order: line 60 factors the jittered Gram
matrix exactly once in each whiten false branch, and the whiten true
branches factor nothing. -/
def build_prior_KL_chols {N D M L P : ℕ} (m : SVGPState N D M L P) : List (Mat M M) :=
  if m.whiten then [] else [m.kern.K M m.Z + jitter • (1 : Mat M M)]

/-- Modelled from the spec: conditionals.py is not under src.  The natural
form conditional gaussian_gp_predict implements the standard sparse
predictive equations, which factor the jittered Gram matrix of Z once per
call; no factor can be passed in through its argument list. -/
def gaussian_gp_predict_chol_list {D M : ℕ} (kern : Kern D) (Z : Mat M D) : List (Mat M M) :=
  [kern.K M Z + jitter • (1 : Mat M M)]

/-- Modelled from the spec: conditionals.py is not under src.  The
whitened conditional first factors the jittered Gram matrix of Z, once
per call. -/
def gaussian_gp_predict_whitened_chol_list {D M : ℕ} (kern : Kern D) (Z : Mat M D) :
    List (Mat M M) :=
  [kern.K M Z + jitter • (1 : Mat M M)]

/-- The matrices factored by the Cholesky primitive during one evaluation
of build_likelihood: those of build_prior_KL followed by those of the
conditional selected by the whiten flag. -/
def build_likelihood_chols {N D M L P : ℕ} (m : SVGPState N D M L P) : List (Mat M M) :=
  build_prior_KL_chols m ++
    (if m.whiten then gaussian_gp_predict_whitened_chol_list m.kern m.Z
      else gaussian_gp_predict_chol_list m.kern m.Z)

/-- Modelled from the spec: the closed form the specification states for
build_prior_KL in the whiten false, q_diag true configuration, written
with the absolute-value log determinant of the factor diagonal; alpha is
the forward solve of q_mu against the factor and the inverse Gram matrix
is obtained by solving with the factor and its transpose. -/
def spec_KL_false_true {M L : ℕ} (chol : Mat M M → Mat M M) (Kz : Mat M M)
    (q_mu q_sqrt : Mat M L) : ℝ :=
  0.5 * (∑ i, ∑ d, (forwardSolveMat (cholK chol Kz) q_mu i d) ^ 2)
    + (L : ℝ) * (∑ i, Real.log |cholK chol Kz i i|)
    - 0.5 * (M : ℝ) * (L : ℝ)
    - 0.5 * (∑ i, ∑ d, Real.log ((q_sqrt i d) ^ 2))
    + 0.5 * (∑ i, ∑ d, Kinv chol Kz i i * (q_sqrt i d) ^ 2)

/-- A concrete kernel for witness instances: the zero kernel on one input
column. -/
def kern0 : Kern 1 := Kern.mk (fun _ _ => 0) (fun _ _ _ _ => 0) (fun _ _ => 0)

/-- A concrete likelihood for witness instances. -/
def lik0 : Likelihood 1 1 1 := Likelihood.mk fun _ _ _ => 0

/-- A concrete whiten false model with one data point, one input column,
one inducing point, one latent function and one target column. -/
def mFalse : SVGPState 1 1 1 1 1 :=
  SVGPState.mk 0 0 kern0 lik0 (fun _ _ => 0) 0 0 (QSqrt.diag 0) false

/-- A concrete whiten true model whose variational parameters are the
construction-time values: zero mean, unit diagonal scale. -/
def mTrue : SVGPState 1 1 1 1 1 :=
  SVGPState.mk 0 0 kern0 lik0 (fun _ _ => 0) 0 0
    (QSqrt.diag (Matrix.of fun _ _ => (1 : ℝ))) true

/-- A concrete Cholesky primitive for witness instances: constantly the
identity, which is lower triangular with nonzero diagonal. -/
def cholTriv : Mat 1 1 → Mat 1 1 := fun _ => 1

/-- Concrete conditional predictors for witness instances. -/
def conds0 : Conditionals 1 1 1 :=
  Conditionals.mk (fun _ _ _ _ _ _ => (0, 0)) (fun _ _ _ _ _ _ => (0, 0))

theorem forwardSolveVec_apply {n : ℕ} (L : Mat n n) (b : Fin n → ℝ) (i : Fin n) :
    forwardSolveVec L b i
      = (b i - ∑ j : Fin n, if j < i then L i j * forwardSolveVec L b j else 0) / L i i := by
  rw [forwardSolveVec.eq_1]
  simp only [dite_eq_ite]

theorem backSolveVec_apply {n : ℕ} (U : Mat n n) (b : Fin n → ℝ) (i : Fin n) :
    backSolveVec U b i
      = (b i - ∑ j : Fin n, if i < j then U i j * backSolveVec U b j else 0) / U i i := by
  rw [backSolveVec.eq_1]
  simp only [dite_eq_ite]

theorem mulVec_forwardSolveVec {n : ℕ} (L : Mat n n) (hlow : IsLowerTriangular L)
    (hdiag : ∀ i, L i i ≠ 0) (b : Fin n → ℝ) :
    L.mulVec (forwardSolveVec L b) = b := by
  funext i
  have key : ∀ j, L i j * forwardSolveVec L b j
      = (if j < i then L i j * forwardSolveVec L b j else 0)
        + (if j = i then L i i * forwardSolveVec L b i else 0) := by
    intro j
    rcases lt_trichotomy j i with h | h | h
    · have hne : j ≠ i := ne_of_lt h
      simp [h, hne]
    · subst h
      simp [lt_irrefl]
    · have h0 : L i j = 0 := hlow i j h
      have hni : ¬ j < i := not_lt_of_gt h
      have hne : j ≠ i := ne_of_gt h
      simp [h0, hni, hne]
  calc (L.mulVec (forwardSolveVec L b)) i = ∑ j, L i j * forwardSolveVec L b j := by
        simp [Matrix.mulVec, Matrix.dotProduct]
    _ = (∑ j, if j < i then L i j * forwardSolveVec L b j else 0)
          + (L i i * forwardSolveVec L b i) := by
        rw [Finset.sum_congr rfl fun j _ => key j, Finset.sum_add_distrib]
        congr 1
        exact Fintype.sum_ite_eq' i fun _ => L i i * forwardSolveVec L b i
    _ = b i := by
        rw [forwardSolveVec_apply L b i, mul_comm, div_mul_cancel₀ _ (hdiag i)]
        ring

theorem mulVec_backSolveVec {n : ℕ} (U : Mat n n) (hup : ∀ i j : Fin n, j < i → U i j = 0)
    (hdiag : ∀ i, U i i ≠ 0) (b : Fin n → ℝ) :
    U.mulVec (backSolveVec U b) = b := by
  funext i
  have key : ∀ j, U i j * backSolveVec U b j
      = (if i < j then U i j * backSolveVec U b j else 0)
        + (if j = i then U i i * backSolveVec U b i else 0) := by
    intro j
    rcases lt_trichotomy i j with h | h | h
    · have hne : j ≠ i := ne_of_gt h
      simp [h, hne]
    · subst h
      simp [lt_irrefl]
    · have h0 : U i j = 0 := hup i j h
      have hni : ¬ i < j := not_lt_of_gt h
      have hne : j ≠ i := ne_of_lt h
      simp [h0, hni, hne]
  calc (U.mulVec (backSolveVec U b)) i = ∑ j, U i j * backSolveVec U b j := by
        simp [Matrix.mulVec, Matrix.dotProduct]
    _ = (∑ j, if i < j then U i j * backSolveVec U b j else 0)
          + (U i i * backSolveVec U b i) := by
        rw [Finset.sum_congr rfl fun j _ => key j, Finset.sum_add_distrib]
        congr 1
        exact Fintype.sum_ite_eq' i fun _ => U i i * backSolveVec U b i
    _ = b i := by
        rw [backSolveVec_apply U b i, mul_comm, div_mul_cancel₀ _ (hdiag i)]
        ring

theorem forwardSolveVec_smul {n : ℕ} (L : Mat n n) (c : ℝ) (b : Fin n → ℝ) (i : Fin n) :
    forwardSolveVec L (fun k => c * b k) i = c * forwardSolveVec L b i := by
  have H : ∀ (t : ℕ) (i : Fin n), i.1 < t →
      forwardSolveVec L (fun k => c * b k) i = c * forwardSolveVec L b i := by
    intro t
    induction t with
    | zero => exact fun i hi => absurd hi (Nat.not_lt_zero _)
    | succ t ih =>
      intro i hi
      rw [forwardSolveVec_apply, forwardSolveVec_apply]
      have hs : (∑ j, if j < i then L i j * forwardSolveVec L (fun k => c * b k) j else 0)
          = c * ∑ j, if j < i then L i j * forwardSolveVec L b j else 0 := by
        rw [Finset.mul_sum]
        refine Finset.sum_congr rfl fun j _ => ?_
        by_cases h : j < i
        · rw [if_pos h, if_pos h, ih j (lt_of_lt_of_le (Fin.lt_def.mp h) (Nat.lt_succ_iff.mp hi))]
          ring
        · rw [if_neg h, if_neg h, mul_zero]
      rw [hs, ← mul_sub, mul_div_assoc]
  exact H (i.1 + 1) i (Nat.lt_succ_self _)

theorem forwardSolveMat_diagonal {n : ℕ} (L : Mat n n) (v : Fin n → ℝ) (i j : Fin n) :
    forwardSolveMat L (Matrix.diagonal v) i j = v j * forwardSolveMat L (1 : Mat n n) i j := by
  have hb : (fun k => Matrix.diagonal v k j) = fun k => v j * (1 : Mat n n) k j := by
    funext k
    by_cases h : k = j
    · subst h
      simp [Matrix.diagonal_apply_eq, Matrix.one_apply_eq]
    · simp [Matrix.diagonal_apply_ne _ h, Matrix.one_apply_ne h]
  show forwardSolveVec L (fun k => Matrix.diagonal v k j) i = v j * forwardSolveVec L (fun k => (1 : Mat n n) k j) i
  rw [hb, forwardSolveVec_smul]

theorem colnorm_eq_Kinv_diag {n : ℕ} (L : Mat n n) (hlow : IsLowerTriangular L)
    (hdiag : ∀ i, L i i ≠ 0) (j : Fin n) :
    ∑ i, (forwardSolveMat L (1 : Mat n n) i j) ^ 2
      = backSolveMat L.transpose (forwardSolveMat L (1 : Mat n n)) j j := by
  have hup : ∀ a b : Fin n, b < a → L.transpose a b = 0 := fun a b h => hlow b a h
  have hdiagT : ∀ i, L.transpose i i ≠ 0 := fun i => hdiag i
  have hv : L.mulVec (fun i => forwardSolveMat L (1 : Mat n n) i j)
      = (fun k => (1 : Mat n n) k j) :=
    mulVec_forwardSolveVec L hlow hdiag _
  have hx : L.transpose.mulVec (fun i => backSolveMat L.transpose (forwardSolveMat L (1 : Mat n n)) i j)
      = (fun i => forwardSolveMat L (1 : Mat n n) i j) :=
    mulVec_backSolveVec L.transpose hup hdiagT _
  have h1 : ∑ i, (forwardSolveMat L (1 : Mat n n) i j) ^ 2
      = Matrix.dotProduct (fun i => forwardSolveMat L (1 : Mat n n) i j)
          (fun i => forwardSolveMat L (1 : Mat n n) i j) := by
    simp [Matrix.dotProduct, sq]
  rw [h1]
  nth_rewrite 2 [← hx]
  rw [Matrix.dotProduct_mulVec, Matrix.vecMul_transpose, hv]
  simp [Matrix.dotProduct, Matrix.one_apply, ite_mul]

theorem trace_term_eq {n : ℕ} (L : Mat n n) (hlow : IsLowerTriangular L)
    (hdiag : ∀ i, L i i ≠ 0) (v : Fin n → ℝ) :
    ∑ i, ∑ j, (forwardSolveMat L (Matrix.diagonal v) i j) ^ 2
      = ∑ i, (backSolveMat L.transpose (forwardSolveMat L (1 : Mat n n)) i i) * (v i) ^ 2 := by
  calc ∑ i, ∑ j, (forwardSolveMat L (Matrix.diagonal v) i j) ^ 2
      = ∑ i, ∑ j, (v j) ^ 2 * (forwardSolveMat L (1 : Mat n n) i j) ^ 2 := by
        refine Finset.sum_congr rfl fun i _ => Finset.sum_congr rfl fun j _ => ?_
        rw [forwardSolveMat_diagonal, mul_pow]
    _ = ∑ j, ∑ i, (v j) ^ 2 * (forwardSolveMat L (1 : Mat n n) i j) ^ 2 := Finset.sum_comm
    _ = ∑ j, (v j) ^ 2 * ∑ i, (forwardSolveMat L (1 : Mat n n) i j) ^ 2 := by
        refine Finset.sum_congr rfl fun j _ => ?_
        rw [Finset.mul_sum]
    _ = ∑ j, (v j) ^ 2 * (backSolveMat L.transpose (forwardSolveMat L (1 : Mat n n)) j j) := by
        refine Finset.sum_congr rfl fun j _ => ?_
        rw [colnorm_eq_Kinv_diag L hlow hdiag j]
    _ = ∑ i, (backSolveMat L.transpose (forwardSolveMat L (1 : Mat n n)) i i) * (v i) ^ 2 := by
        refine Finset.sum_congr rfl fun j _ => ?_
        ring

theorem lowerTriangle_diagonal {n : ℕ} (v : Fin n → ℝ) :
    lowerTriangle (Matrix.diagonal v) = Matrix.diagonal v := by
  ext i j
  by_cases h : j ≤ i
  · simp [lowerTriangle, h]
  · have hne : i ≠ j := fun he => h (le_of_eq he.symm)
    simp [lowerTriangle, h, Matrix.diagonal_apply_ne _ hne]

theorem sum_split_swap {M L : ℕ} (f g : Fin M → Fin L → ℝ) :
    ∑ d, (-(0.5 * ∑ i, f i d) + 0.5 * ∑ i, g i d)
      = -(0.5 * ∑ i, ∑ d, f i d) + 0.5 * ∑ i, ∑ d, g i d := by
  rw [Finset.sum_add_distrib]
  congr 1
  · rw [show (∑ d : Fin L, -(0.5 * ∑ i, f i d)) = -∑ d : Fin L, 0.5 * ∑ i, f i d from
      Finset.sum_neg_distrib, ← Finset.mul_sum]
    have hc : (∑ d : Fin L, ∑ i : Fin M, f i d) = ∑ i, ∑ d, f i d := Finset.sum_comm
    rw [hc]
  · rw [← Finset.mul_sum]
    have hc : (∑ d : Fin L, ∑ i : Fin M, g i d) = ∑ i, ∑ d, g i d := Finset.sum_comm
    rw [hc]

theorem diagonal_row_sq_sum {n : ℕ} (f : Fin n → ℝ) (i : Fin n) :
    ∑ j, (Matrix.diagonal f i j) ^ 2 = (f i) ^ 2 := by
  have h : ∀ j, (Matrix.diagonal f i j) ^ 2 = if i = j then (f i) ^ 2 else 0 := by
    intro j
    by_cases h : i = j
    · subst h
      simp [Matrix.diagonal_apply_eq]
    · simp [Matrix.diagonal_apply_ne _ h, h]
  rw [Finset.sum_congr rfl fun j _ => h j]
  exact Fintype.sum_ite_eq i fun _ => (f i) ^ 2

theorem KL_white_full_diag {M L : ℕ} (q_mu s : Mat M L) :
    KL_white_full q_mu (fun d => Matrix.diagonal fun i => s i d) = KL_white_diag q_mu s := by
  unfold KL_white_full KL_white_diag
  have hterm : ∀ d : Fin L,
      (-(0.5 * (∑ i, Real.log ((lowerTriangle (Matrix.diagonal fun i => s i d) i i) ^ 2)))
        + 0.5 * (∑ i, ∑ j, (lowerTriangle (Matrix.diagonal fun i => s i d) i j) ^ 2))
      = (-(0.5 * (∑ i, Real.log ((s i d) ^ 2))) + 0.5 * (∑ i, (s i d) ^ 2)) := by
    intro d
    rw [lowerTriangle_diagonal]
    have h1 : (∑ i, Real.log ((Matrix.diagonal (fun i => s i d) i i) ^ 2))
        = ∑ i, Real.log ((s i d) ^ 2) := by
      refine Finset.sum_congr rfl fun i _ => ?_
      rw [Matrix.diagonal_apply_eq]
    have h2 : (∑ i, ∑ j, (Matrix.diagonal (fun i => s i d) i j) ^ 2)
        = ∑ i, (s i d) ^ 2 :=
      Finset.sum_congr rfl fun i _ => diagonal_row_sq_sum _ i
    rw [h1, h2]
  rw [Finset.sum_congr rfl fun d _ => hterm d, sum_split_swap]

theorem KL_nat_full_diag {M L : ℕ} (chol : Mat M M → Mat M M) (Kz : Mat M M)
    (q_mu s : Mat M L) (hlow : IsLowerTriangular (cholK chol Kz))
    (hdiag : ∀ i, cholK chol Kz i i ≠ 0) :
    KL_nat_full chol Kz q_mu (fun d => Matrix.diagonal fun i => s i d)
      = KL_nat_diag chol Kz q_mu s := by
  unfold KL_nat_full KL_nat_diag Kinv
  have hterm : ∀ d : Fin L,
      (-(0.5 * (∑ i, Real.log ((lowerTriangle (Matrix.diagonal fun i => s i d) i i) ^ 2)))
        + 0.5 * (∑ i, ∑ j, (forwardSolveMat (cholK chol Kz)
            (lowerTriangle (Matrix.diagonal fun i => s i d)) i j) ^ 2))
      = (-(0.5 * (∑ i, Real.log ((s i d) ^ 2)))
        + 0.5 * (∑ i, backSolveMat (cholK chol Kz).transpose
            (forwardSolveMat (cholK chol Kz) (1 : Mat M M)) i i * (s i d) ^ 2)) := by
    intro d
    rw [lowerTriangle_diagonal]
    have h1 : (∑ i, Real.log ((Matrix.diagonal (fun i => s i d) i i) ^ 2))
        = ∑ i, Real.log ((s i d) ^ 2) := by
      refine Finset.sum_congr rfl fun i _ => ?_
      rw [Matrix.diagonal_apply_eq]
    rw [h1, trace_term_eq (cholK chol Kz) hlow hdiag]
  rw [Finset.sum_congr rfl fun d _ => hterm d, sum_split_swap]
  ring

theorem KL_nat_diag_eq_spec {M L : ℕ} (chol : Mat M M → Mat M M) (Kz : Mat M M)
    (q_mu q_sqrt : Mat M L) :
    KL_nat_diag chol Kz q_mu q_sqrt = spec_KL_false_true chol Kz q_mu q_sqrt := by
  unfold KL_nat_diag spec_KL_false_true
  have h1 : (∑ i, Real.log ((cholK chol Kz i i) ^ 2))
      = ∑ i, 2 * Real.log (cholK chol Kz i i) := by
    refine Finset.sum_congr rfl fun i _ => ?_
    rw [Real.log_pow]
    norm_num
  have h2 : (∑ i, Real.log |cholK chol Kz i i|)
      = ∑ i, Real.log (cholK chol Kz i i) := by
    refine Finset.sum_congr rfl fun i _ => ?_
    rw [Real.log_abs]
  rw [h1, h2, ← Finset.mul_sum]
  ring

/-- C1 (amended): in every evaluation of build_likelihood with whiten
false, the jittered Gram matrix of Z is factored twice, once inside
build_prior_KL and once independently inside the natural conditional
predictor; no factor is shared, since build_prior_KL returns only the
scalar KL and the conditional receives no factor in its argument list. -/
theorem C1_cholesky_factored_twice {N D M L P : ℕ} (m : SVGPState N D M L P)
    (hw : m.whiten = false) :
    build_likelihood_chols m
      = [m.kern.K M m.Z + jitter • (1 : Mat M M),
         m.kern.K M m.Z + jitter • (1 : Mat M M)] := by
  simp [build_likelihood_chols, build_prior_KL_chols, gaussian_gp_predict_chol_list, hw]

/-- C1 witness: the amended statement instantiated at the concrete whiten
false model. -/
theorem C1_cholesky_factored_twice_witness :
    mFalse.whiten = false
      ∧ build_likelihood_chols mFalse
        = [mFalse.kern.K 1 mFalse.Z + jitter • (1 : Mat 1 1),
           mFalse.kern.K 1 mFalse.Z + jitter • (1 : Mat 1 1)] :=
  ⟨rfl, C1_cholesky_factored_twice mFalse rfl⟩

/-- C1 counterexample: at a concrete whiten false model, one evaluation of
build_likelihood factors the jittered Gram matrix twice, so the
factorization is not performed at most once. -/
theorem C1_single_factorization_counterexample :
    build_likelihood_chols mFalse
        = [kern0.K 1 0 + jitter • (1 : Mat 1 1), kern0.K 1 0 + jitter • (1 : Mat 1 1)]
      ∧ ¬ (build_likelihood_chols mFalse).length ≤ 1 := by
  constructor
  · rfl
  · intro hle
    have h2 : (build_likelihood_chols mFalse).length = 2 := rfl
    omega

/-- C2: with whiten false and a diagonal q_sqrt, build_prior_KL returns
exactly the claimed closed form: half the squared forward-solved mean,
plus the latent count times the log determinant of the factor diagonal,
minus half M times the latent count, minus half the log of the squared
scales, plus half the inverse-Gram diagonal weighted squared scales. -/
theorem C2_build_prior_KL_closed_form {N D M L P : ℕ} (chol : Mat M M → Mat M M)
    (X : Mat N D) (Y : Mat N P) (kern : Kern D) (lik : Likelihood N L P)
    (mf : (n : ℕ) → Matrix (Fin n) (Fin D) ℝ → Matrix (Fin n) (Fin L) ℝ)
    (Z : Mat M D) (q_mu s : Mat M L) :
    build_prior_KL chol (SVGPState.mk X Y kern lik mf Z q_mu (QSqrt.diag s) false)
      = spec_KL_false_true chol (kern.K M Z) q_mu s :=
  KL_nat_diag_eq_spec chol (kern.K M Z) q_mu s

/-- C3: build_likelihood is the sum of the variational expectations of the
likelihood, evaluated at the conditional mean plus the mean function and
the conditional variance at the training inputs, with the whitened
conditional picked exactly when whiten holds, minus the prior KL. -/
theorem C3_build_likelihood_is_elbo {N D M L P : ℕ} (chol : Mat M M → Mat M M)
    (conds : Conditionals D M L) (m : SVGPState N D M L P) :
    build_likelihood chol conds m
      = (∑ i, ∑ j,
          (m.likelihood.variational_expectations
            ((if m.whiten
              then (conds.gaussian_gp_predict_whitened N m.X m.Z m.kern m.q_mu m.q_sqrt).1
              else (conds.gaussian_gp_predict N m.X m.Z m.kern m.q_mu m.q_sqrt).1)
              + m.mean_function N m.X)
            (if m.whiten
              then (conds.gaussian_gp_predict_whitened N m.X m.Z m.kern m.q_mu m.q_sqrt).2
              else (conds.gaussian_gp_predict N m.X m.Z m.kern m.q_mu m.q_sqrt).2)
            m.Y) i j)
        - build_prior_KL chol m := by
  cases hw : m.whiten <;> simp [build_likelihood, hw]

/-- C4: with whiten true, a diagonal q_sqrt of all ones and a zero q_mu,
the construction-time values, build_prior_KL is exactly zero. -/
theorem C4_default_KL_zero {N D M L P : ℕ} (chol : Mat M M → Mat M M)
    (m : SVGPState N D M L P) (s : Mat M L)
    (hw : m.whiten = true) (hq : m.q_sqrt = QSqrt.diag s)
    (hmu : m.q_mu = 0) (hs : s = Matrix.of fun _ _ => (1 : ℝ)) :
    build_prior_KL chol m = 0 := by
  obtain ⟨X, Y, kern, lik, mf, Z, qmu, qs, w⟩ := m
  dsimp only at hw hq hmu
  subst hw
  subst hq
  subst hmu
  subst hs
  show KL_white_diag 0 (Matrix.of fun _ _ => (1 : ℝ)) = 0
  unfold KL_white_diag
  simp [Finset.sum_const, Fintype.card_fin]
  ring

/-- C4 witness: the statement instantiated at the concrete whiten true
model carrying the construction-time variational parameters. -/
theorem C4_default_KL_zero_witness :
    mTrue.whiten = true
      ∧ mTrue.q_sqrt = QSqrt.diag (Matrix.of fun _ _ => (1 : ℝ))
      ∧ mTrue.q_mu = 0
      ∧ build_prior_KL cholTriv mTrue = 0 :=
  ⟨rfl, rfl, rfl, C4_default_KL_zero cholTriv mTrue (Matrix.of fun _ _ => (1 : ℝ)) rfl rfl rfl rfl⟩

/-- C5: for strictly positive scales s and either whiten setting, the full
covariance branch applied to the diagonal matrices built from s computes
the same prior KL as the diagonal branch applied to s, for the same Z,
kernel and q_mu, provided the Cholesky factor is lower triangular with a
nonzero diagonal. -/
theorem C5_full_diag_branch_agree {N D M L P : ℕ} (chol : Mat M M → Mat M M)
    (X : Mat N D) (Y : Mat N P) (kern : Kern D) (lik : Likelihood N L P)
    (mf : (n : ℕ) → Matrix (Fin n) (Fin D) ℝ → Matrix (Fin n) (Fin L) ℝ)
    (Z : Mat M D) (q_mu s : Mat M L) (w : Bool)
    (hs : ∀ i d, 0 < s i d)
    (hlow : IsLowerTriangular (cholK chol (kern.K M Z)))
    (hdiag : ∀ i, cholK chol (kern.K M Z) i i ≠ 0) :
    build_prior_KL chol (SVGPState.mk X Y kern lik mf Z q_mu
        (QSqrt.full fun d => Matrix.diagonal fun i => s i d) w)
      = build_prior_KL chol (SVGPState.mk X Y kern lik mf Z q_mu (QSqrt.diag s) w) := by
  cases w with
  | false => exact KL_nat_full_diag chol (kern.K M Z) q_mu s hlow hdiag
  | true => exact KL_white_full_diag q_mu s

/-- C5 witness: the statement instantiated with the identity Cholesky
primitive, the zero kernel and unit scales on one inducing point. -/
theorem C5_full_diag_branch_agree_witness :
    (∀ i d : Fin 1, 0 < (Matrix.of fun _ _ => (1 : ℝ)) i d)
      ∧ IsLowerTriangular (cholK cholTriv (kern0.K 1 0))
      ∧ (∀ i, cholK cholTriv (kern0.K 1 0) i i ≠ 0)
      ∧ build_prior_KL cholTriv (SVGPState.mk 0 0 kern0 lik0 (fun _ _ => 0) 0 0
            (QSqrt.full fun d => Matrix.diagonal fun i => (Matrix.of fun _ _ => (1 : ℝ)) i d) false)
        = build_prior_KL cholTriv (SVGPState.mk 0 0 kern0 lik0 (fun _ _ => 0) 0 0
            (QSqrt.diag (Matrix.of fun _ _ => (1 : ℝ))) false) := by
  have h1 : ∀ i d : Fin 1, 0 < (Matrix.of fun _ _ => (1 : ℝ)) i d := fun _ _ => one_pos
  have h2 : IsLowerTriangular (cholK cholTriv (kern0.K 1 0)) := by
    intro i j hij
    have hi := i.isLt
    have hj := j.isLt
    have hij2 : i = j := Fin.ext (by omega)
    rw [hij2] at hij
    exact absurd hij (lt_irrefl j)
  have h3 : ∀ i, cholK cholTriv (kern0.K 1 0) i i ≠ 0 := by
    intro i
    show (1 : Mat 1 1) i i ≠ 0
    rw [Matrix.one_apply_eq]
    exact one_ne_zero
  exact ⟨h1, h2, h3, C5_full_diag_branch_agree cholTriv 0 0 kern0 lik0 (fun _ _ => 0) 0 0
    (Matrix.of fun _ _ => (1 : ℝ)) false h1 h2 h3⟩

/-- C6: the constructed q_sqrt parameter carries the positivity transform
exactly in the diagonal case and no constraint in the full case, and the
positivity transform maps every unconstrained real to a strictly positive
value. -/
theorem C6_positivity_only_diag (M L : ℕ) :
    (svgp_q_sqrt_init M L true).transform = Transform.positive
      ∧ (svgp_q_sqrt_init M L false).transform = Transform.identity
      ∧ ∀ x : ℝ, 0 < transforms_positive x := by
  refine ⟨rfl, rfl, fun x => ?_⟩
  have h := Real.exp_pos x
  have h1 : (1 : ℝ) < 1 + Real.exp x := by linarith
  simpa [transforms_positive] using Real.log_pos h1

/-- C7: build_predict returns the conditional picked by the whiten flag
with the mean function added to its mean component, and its output is
unchanged when only the targets Y or the likelihood object differ. -/
theorem C7_build_predict_delegates {N D M L P n : ℕ} (conds : Conditionals D M L)
    (m : SVGPState N D M L P) (Xnew : Matrix (Fin n) (Fin D) ℝ)
    (Yp : Mat N P) (likp : Likelihood N L P) :
    build_predict conds m Xnew
      = ((if m.whiten
            then (conds.gaussian_gp_predict_whitened n Xnew m.Z m.kern m.q_mu m.q_sqrt).1
            else (conds.gaussian_gp_predict n Xnew m.Z m.kern m.q_mu m.q_sqrt).1)
          + m.mean_function n Xnew,
         if m.whiten
            then (conds.gaussian_gp_predict_whitened n Xnew m.Z m.kern m.q_mu m.q_sqrt).2
            else (conds.gaussian_gp_predict n Xnew m.Z m.kern m.q_mu m.q_sqrt).2)
      ∧ build_predict conds
          (SVGPState.mk m.X Yp m.kern likp m.mean_function m.Z m.q_mu m.q_sqrt m.whiten) Xnew
        = build_predict conds m Xnew := by
  constructor
  · cases hw : m.whiten <;> simp [build_predict, hw]
  · rfl

/-- C8: in the whiten false branches the single factored matrix is exactly
the Gram matrix of Z plus 1e-6 times the identity, the whiten true
branches factor nothing, and the factor used by the KL formulas is the
Cholesky primitive applied to exactly that jittered matrix. -/
theorem C8_jitter_exact {N D M L P : ℕ} (chol : Mat M M → Mat M M)
    (X : Mat N D) (Y : Mat N P) (kern : Kern D) (lik : Likelihood N L P)
    (mf : (n : ℕ) → Matrix (Fin n) (Fin D) ℝ → Matrix (Fin n) (Fin L) ℝ)
    (Z : Mat M D) (q_mu : Mat M L) (qs : QSqrt M L) (Kz : Mat M M) :
    build_prior_KL_chols (SVGPState.mk X Y kern lik mf Z q_mu qs false)
        = [kern.K M Z + ((1e-6 : ℝ) • (1 : Mat M M))]
      ∧ build_prior_KL_chols (SVGPState.mk X Y kern lik mf Z q_mu qs true) = ([] : List (Mat M M))
      ∧ cholK chol Kz = chol (Kz + (1e-6 : ℝ) • (1 : Mat M M)) :=
  ⟨rfl, rfl, rfl⟩

/-- C9: immediately after construction q_mu is the M by L zero matrix, and
q_sqrt is all ones in the diagonal case and a stack of L identity matrices
in the full case. -/
theorem C9_variational_parameter_values (M L : ℕ) :
    (svgp_q_mu_init M L).value = (0 : Mat M L)
      ∧ (svgp_q_sqrt_init M L true).value = QSqrt.diag (Matrix.of fun _ _ => (1 : ℝ))
      ∧ (svgp_q_sqrt_init M L false).value = QSqrt.full (fun _ => (1 : Mat M M)) :=
  ⟨rfl, rfl, rfl⟩

/-- C10: the constructor resolves the latent-function count with Python
truthiness: an omitted or None argument and the integer zero both fall
back to the column count of Y, while any nonzero value is kept. -/
theorem C10_num_latent_falsy :
    (∀ c : ℕ, svgp_num_latent none c = c)
      ∧ (∀ c : ℕ, svgp_num_latent (some 0) c = c)
      ∧ (∀ k c : ℕ, svgp_num_latent (some k) c = if k = 0 then c else k) :=
  ⟨fun _ => rfl, fun _ => rfl, fun _ _ => rfl⟩
